import Mathlib

/-!
Verification of the `ShuffleTree` circular order-statistics container from
`src/helpers/shuffle_tree.rs`.

The Rust code stores its elements in an `outils::WeightedAaTree<usize, T>`,
an external balanced-tree library keyed by `usize` with per-node weight 1, so
the tree's observable content is a finite map from keys to values together
with per-subtree element counts.  The development has two layers:

* A sorted association list `List (Nat × α)` models the content of the
  weighted tree.  All of the library operations the repository calls
  (`insert_weighted` with weight 1, `remove`, `key`, `successor`,
  `predecessor`, `first`, `last`, `subweight(root)`, in-order `values`)
  are given their key-order semantics on this list, and the repository's
  own functions (`move_by_wrapping`, `append`, `prepend`,
  `node_at_position_wrapping`, ...) are transcribed on top of them.
  Rust panics (`unwrap`/`expect`/`panic!`) are modelled as `Option.none`.

* A zipper over binary trees models the *shape-level* navigation
  (`child`, `parent`, `subweight`) that `traverse_by_wrapping` and its
  helpers perform, transcribed clause by clause from the source with a
  fuel parameter standing for the Rust call stack.  The bridge theorems
  prove that for every tree shape the walk terminates and lands on the
  node whose in-order rank is the start rank plus the offset, reduced
  modulo the tree's total weight — which is exactly the rank semantics
  the list layer uses.
-/

set_option autoImplicit false
set_option linter.unusedVariables false

namespace ShuffleTree

universe u v

variable {α : Type u} {β : Type v}

/-- Content of the weighted AA tree: an association list of (key, value)
pairs, kept sorted by strictly increasing key. -/
abbrev KV (α : Type u) := List (Nat × α)

/-- Keys in list order. -/
def keys (l : KV α) : List Nat := l.map Prod.fst

/-- Values in key order: models `ShuffleTree::ordered_values`. -/
def ordered_values (l : KV α) : List α := l.map Prod.snd

/-- The list is strictly sorted by key, the invariant of the backing
search tree. -/
def sortedKeys (l : KV α) : Prop := List.Pairwise (fun a b => a.1 < b.1) l

instance (l : KV α) : Decidable (sortedKeys l) := List.instDecidablePairwise l

/-- Total weight of the tree: every insertion in the source uses weight 1,
so `subweight(root)` is the population count. -/
def total_weight (l : KV α) : Nat := l.length

/-- Value stored at a key: models `WeightedAaTree::key`/indexing (`none`
models the `expect` panic on a missing key). -/
def lookupValue : KV α → Nat → Option α
  | [], _ => none
  | (k, v) :: rest, h => if k = h then some v else lookupValue rest h

/-- Removal by key: models `WeightedAaTree::remove`. -/
def removeKey : KV α → Nat → KV α
  | [], _ => []
  | (k, v) :: rest, h => if k = h then rest else (k, v) :: removeKey rest h

/-- Smallest key strictly greater than `h` (on a sorted list, the first such
key): models `WeightedAaTree::successor`. -/
def successorKey : KV α → Nat → Option Nat
  | [], _ => none
  | (k, _) :: rest, h => if h < k then some k else successorKey rest h

/-- Largest key strictly less than `h` (on a sorted list, the last such
key): models `WeightedAaTree::predecessor`. -/
def predecessorKey : KV α → Nat → Option Nat
  | [], _ => none
  | (k, _) :: rest, h =>
    if k < h then some ((predecessorKey rest h).getD k) else none

/-- Key of the first (minimum-key) node: models `WeightedAaTree::first`. -/
def firstKey (l : KV α) : Option Nat := l.head?.map Prod.fst

/-- Key of the last (maximum-key) node: models `WeightedAaTree::last`. -/
def lastKey : KV α → Option Nat
  | [] => none
  | [(k, _)] => some k
  | _ :: rest => lastKey rest

/-- Sorted insertion before the first key that is not smaller: models
`WeightedAaTree::insert_weighted` with weight 1 (all call sites insert a
key that is not already present). -/
def insert_weighted : KV α → Nat → α → KV α
  | [], k, v => [(k, v)]
  | (k0, v0) :: rest, k, v =>
    if k < k0 then (k, v) :: (k0, v0) :: rest
    else (k0, v0) :: insert_weighted rest k v

/-- Positional lookup. -/
def nth : List β → Nat → Option β
  | [], _ => none
  | x :: _, 0 => some x
  | _ :: rest, n + 1 => nth rest n

/-- Key at a given in-order rank. -/
def nthKey (l : KV α) (n : Nat) : Option Nat := (nth l n).map Prod.fst

/-- Rank of a key present in a sorted list: the number of entries scanned
before the first key that is not smaller than `h`. -/
def rankOfKey : KV α → Nat → Nat
  | [], _ => 0
  | (k, _) :: rest, h => if k < h then rankOfKey rest h + 1 else 0

/-- Rank semantics of `ShuffleTree::traverse_by_wrapping` starting from the
node with key `fromKey`: the key whose in-order rank is the start rank plus
the offset, reduced modulo the total weight.  `none` models the panic the
Rust code hits on an empty tree (`root(..).unwrap()`).  The theorem
`traverse_by_wrapping_rank` below proves that the tree walk transcribed
from the source computes exactly this, for every tree shape. -/
def listTraverse (l : KV α) (fromKey : Nat) (b : Int) : Option Nat :=
  if l.length = 0 then none
  else nthKey l ((((rankOfKey l fromKey : Int) + b) % (l.length : Int)).toNat)

/-- Models `ShuffleTree::append`: insert one full interleaving gap past the
current maximum key. -/
def append (B : Nat) (l : KV α) (v : α) : Option (KV α) :=
  match lastKey l with
  | none => none
  | some m => some (insert_weighted l (m + (1 <<< B)) v)

/-- Models `ShuffleTree::prepend`: insert at half the current minimum key,
panicking (`none`) when the minimum key is already 0. -/
def prepend (B : Nat) (l : KV α) (v : α) : Option (KV α) :=
  match firstKey l with
  | none => none
  | some m => if m = 0 then none else some (insert_weighted l (m >>> 1) v)

/-- Reinsertion phase of `ShuffleTree::move_by_wrapping` (steps after the
destination node is found): append to the back when the destination has no
predecessor, otherwise allocate the key halfway between the destination and
its predecessor, panicking (`none`) when no integer lies strictly between
them. -/
def reinsert (B : Nat) (l2 : KV α) (destKey : Nat) (v : α) : Option (KV α) :=
  match predecessorKey l2 destKey with
  | none => append B l2 v
  | some predKey =>
    if destKey = predKey + 1 then none
    else some (insert_weighted l2 (predKey + ((destKey - predKey) >>> 1)) v)

/-- Models `ShuffleTree::move_by_wrapping`: record the node's circular
successor, remove the node, walk `by` positions from the successor through
the one-smaller tree, and reinsert the value just before the destination. -/
def move_by_wrapping (B : Nat) (l : KV α) (node : Nat) (b : Int) :
    Option (KV α) :=
  match lookupValue l node with
  | none => none
  | some v =>
    let succ := (successorKey l node).getD ((firstKey l).getD 0)
    let l2 := removeKey l node
    match listTraverse l2 succ b with
    | none => none
    | some destKey => reinsert B l2 destKey v

/-- Models `ShuffleTree::node_at_position_wrapping` (by
`traverse_by_wrapping_rank`, walking from the first node — rank 0 — by the
position reduced modulo the total weight reaches the node at that rank). -/
def node_at_position_wrapping (l : KV α) (position : Nat) : Option Nat :=
  if l.length = 0 then none
  else listTraverse l ((firstKey l).getD 0) ((position % l.length : Nat) : Int)

/-- Models `ShuffleTree::node_at_position`. -/
def node_at_position (l : KV α) (position : Nat) : Option Nat :=
  if l.length ≤ position then none else node_at_position_wrapping l position

/-- Models the `FromIterator` construction: each (index, value) pair is
inserted with key `(index + 1) <<< INTERLEAVING_BITS`. -/
def from_sequence (B : Nat) (pairs : List (Nat × α)) : KV α :=
  pairs.foldl (fun acc kv => insert_weighted acc ((kv.1 + 1) <<< B) kv.2) []

/-- Insertion of an element at a given position of a plain list, used to
state where a moved element lands. -/
def insertAt : Nat → β → List β → List β
  | 0, x, l => x :: l
  | _ + 1, x, [] => [x]
  | n + 1, x, y :: l => y :: insertAt n x l

/-- The ten-element container of the repository's unit tests: values
`0..9` with the default 48 interleaving bits. -/
def T10 : KV Nat := from_sequence 48 ((List.range 10).map (fun i => (i, i)))

/-- Key-space allocation the spec ascribes to `prepend`.  Modelled from the
spec: "extend at either extreme by one full interleaving gap (`2^B`)";
the source instead halves the current minimum key. -/
def prepend_key_spec (B : Nat) (currentMinKey : Nat) : Nat :=
  currentMinKey - (1 <<< B)

/-! ### Tree shapes and the weight-guided wrapping traversal

`traverse_by_wrapping` and its helpers navigate the backing tree through
`child`, `parent` and `subweight`, so they are modelled on explicit binary
tree shapes (the balancing discipline lives in the external library; the
repository's code is correct for every shape, and the theorems below
quantify over all of them).  A node handle is a zipper: the focused
subtree, which is always a real node, plus the stack of ancestor frames.
The mutually recursive Rust functions become fuel-indexed functions, the
fuel standing for the call stack; `none` models both exhaustion and the
panics (`unwrap` on an absent root, division by zero in `by / by.abs()`).
-/

/-- Shape and content of the backing weighted tree (weight of every
element is 1, so subweights are node counts). -/
inductive BT (α : Type u) where
  | leaf : BT α
  | node : BT α → Nat → α → BT α → BT α

/-- Subtree weight: models `subweight` for weight-1 insertions. -/
def weight : BT α → Nat
  | .leaf => 0
  | .node l _ _ r => weight l + 1 + weight r

/-- In-order contents, the sorted (key, value) list the tree represents. -/
def inorder : BT α → KV α
  | .leaf => []
  | .node l k v r => inorder l ++ (k, v) :: inorder r

/-- One ancestor frame of a zipper: whether the focus is the left or the
right child, the parent's key/value and the sibling subtree. -/
inductive Frame (α : Type u) where
  | left (pk : Nat) (pv : α) (sib : BT α)
  | right (sib : BT α) (pk : Nat) (pv : α)

/-- Ancestor stack, innermost frame first. -/
abbrev Ctx (α : Type u) := List (Frame α)

/-- A node handle (`NodeIndex` pointing at an existing node): a zipper
whose focus is the node `(l, k, v, r)` under the ancestor stack `ctx`. -/
structure Loc (α : Type u) where
  ctx : Ctx α
  l : BT α
  k : Nat
  v : α
  r : BT α

/-- The focused subtree. -/
def Loc.focus (t : Loc α) : BT α := BT.node t.l t.k t.v t.r

/-- Rebuild a tree from a subtree and its ancestor stack. -/
def plugCtx : BT α → Ctx α → BT α
  | t, [] => t
  | t, Frame.left pk pv sib :: rest => plugCtx (BT.node t pk pv sib) rest
  | t, Frame.right sib pk pv :: rest => plugCtx (BT.node sib pk pv t) rest

/-- The whole tree the handle points into. -/
def Loc.plug (t : Loc α) : BT α := plugCtx t.focus t.ctx

/-- Child of a node, 0 = left and 1 = right: models
`WeightedAaTree::child` (absent children are `None`). -/
def childOf : BT α → Nat → Option (BT α)
  | .leaf, _ => none
  | .node l _ _ _, 0 => (match l with | .leaf => none | t => some t)
  | .node _ _ _ r, _ + 1 => (match r with | .leaf => none | t => some t)

/-- Models `ShuffleTree::child_distance_to_parent`: the in-order distance
from a child node to its parent on the `pos` side. -/
def child_distance_to_parent (child : BT α) (pos : Nat) : Nat :=
  match childOf child pos with
  | some c => weight c + 1
  | none => 1

mutual

/-- Models `ShuffleTree::traverse_by_wrapping` (fuel-indexed). -/
def traverse_by_wrapping : Nat → Loc α → Int → Option (Loc α)
  | 0, _, _ => none
  | fuel + 1, t, b =>
    let by_wrapped := b.tmod (weight t.plug : Int)
    if 0 < by_wrapped then traverse_forward_wrapping fuel t by_wrapped.toNat
    else if by_wrapped < 0 then
      traverse_backward_wrapping fuel t (- by_wrapped).toNat
    else some t

/-- Models `ShuffleTree::traverse_forward_wrapping` (the `by` argument is
the Rust `NonZeroUsize`). -/
def traverse_forward_wrapping : Nat → Loc α → Nat → Option (Loc α)
  | 0, _, _ => none
  | fuel + 1, t, b =>
    match t.r with
    | BT.node rl rk rv rr =>
      if b ≤ weight (BT.node rl rk rv rr) then
        traverse_by_wrapping fuel
          ⟨Frame.right t.l t.k t.v :: t.ctx, rl, rk, rv, rr⟩
          ((b : Int) - (child_distance_to_parent (BT.node rl rk rv rr) 0 : Int))
      else traverse_up_wrapping fuel t (b : Int)
    | BT.leaf => traverse_up_wrapping fuel t (b : Int)

/-- Models `ShuffleTree::traverse_backward_wrapping`. -/
def traverse_backward_wrapping : Nat → Loc α → Nat → Option (Loc α)
  | 0, _, _ => none
  | fuel + 1, t, b =>
    match t.l with
    | BT.node ll lk lv lr =>
      if b ≤ weight (BT.node ll lk lv lr) then
        traverse_by_wrapping fuel
          ⟨Frame.left t.k t.v t.r :: t.ctx, ll, lk, lv, lr⟩
          (0 - (b : Int) + (child_distance_to_parent (BT.node ll lk lv lr) 1 : Int))
      else traverse_up_wrapping fuel t (0 - (b : Int))
    | BT.leaf => traverse_up_wrapping fuel t (0 - (b : Int))

/-- Models `ShuffleTree::traverse_up_wrapping` (at the root the Rust code
wraps around the whole tree after computing `by / by.abs()`). -/
def traverse_up_wrapping : Nat → Loc α → Int → Option (Loc α)
  | 0, _, _ => none
  | fuel + 1, t, b =>
    match t.ctx with
    | Frame.left pk pv sib :: rest =>
      traverse_by_wrapping fuel ⟨rest, t.focus, pk, pv, sib⟩
        (b - (child_distance_to_parent t.focus 1 : Int))
    | Frame.right sib pk pv :: rest =>
      traverse_by_wrapping fuel ⟨rest, sib, pk, pv, t.focus⟩
        (b + (child_distance_to_parent t.focus 0 : Int))
    | [] =>
      traverse_by_wrapping fuel t
        (b - (weight t.focus : Int) * (b.tdiv (b.natAbs : Int)))

end

/-- Number of in-order predecessors contributed by the ancestor stack. -/
def ctxRank : Ctx α → Nat
  | [] => 0
  | Frame.left _ _ _ :: rest => ctxRank rest
  | Frame.right sib _ _ :: rest => weight sib + 1 + ctxRank rest

/-- In-order rank of the focused node inside the whole tree. -/
def Loc.rank (t : Loc α) : Nat := weight t.l + ctxRank t.ctx

/-- Number of nodes contributed by the ancestor stack. -/
def ctxWeight : Ctx α → Nat
  | [] => 0
  | Frame.left _ _ sib :: rest => weight sib + 1 + ctxWeight rest
  | Frame.right sib _ _ :: rest => weight sib + 1 + ctxWeight rest

/-! ### Basic lemmas about the list model -/

theorem nth_lt_length {l : List β} {n : Nat} {x : β} (h : nth l n = some x) :
    n < l.length := by
  induction l generalizing n with
  | nil => simp [nth] at h
  | cons y t ih =>
    cases n with
    | zero => simp
    | succ m => simpa using ih (by simpa [nth] using h)

theorem nth_eq_some_of_lt {l : List β} {n : Nat} (h : n < l.length) :
    ∃ x, nth l n = some x := by
  induction l generalizing n with
  | nil => simp at h
  | cons y t ih =>
    cases n with
    | zero => exact ⟨y, rfl⟩
    | succ m => exact ih (by simpa using h)

theorem nth_mem {l : List β} {n : Nat} {x : β} (h : nth l n = some x) : x ∈ l := by
  induction l generalizing n with
  | nil => simp [nth] at h
  | cons y t ih =>
    cases n with
    | zero => simp [nth] at h; simp [h]
    | succ m => exact List.mem_cons_of_mem _ (ih (by simpa [nth] using h))

theorem length_insert_weighted (l : KV α) (k : Nat) (v : α) :
    (insert_weighted l k v).length = l.length + 1 := by
  induction l with
  | nil => rfl
  | cons y t ih =>
    by_cases h : k < y.1 <;> simp [insert_weighted, h, ih]

theorem length_removeKey {l : KV α} {h : Nat} {v : α}
    (hl : lookupValue l h = some v) : (removeKey l h).length + 1 = l.length := by
  induction l with
  | nil => simp [lookupValue] at hl
  | cons y t ih =>
    by_cases hk : y.1 = h
    · simp [removeKey, hk]
    · simp only [lookupValue, hk, if_false] at hl
      simp [removeKey, hk, ih hl]

theorem removeKey_sublist (l : KV α) (h : Nat) : (removeKey l h).Sublist l := by
  induction l with
  | nil => simp [removeKey]
  | cons y t ih =>
    by_cases hk : y.1 = h
    · simpa [removeKey, hk] using List.sublist_cons_self y t
    · simpa [removeKey, hk] using ih.cons₂ y

theorem sortedKeys_removeKey {l : KV α} (hs : sortedKeys l) (h : Nat) :
    sortedKeys (removeKey l h) :=
  List.Pairwise.sublist (removeKey_sublist l h) hs

theorem predecessorKey_lt {l : KV α} {h p : Nat}
    (hp : predecessorKey l h = some p) : p < h := by
  induction l generalizing p with
  | nil => simp [predecessorKey] at hp
  | cons y t ih =>
    by_cases hk : y.1 < h
    · simp only [predecessorKey, hk, if_true, Option.some.injEq] at hp
      cases hq : predecessorKey t h with
      | none => rw [hq] at hp; simpa [← hp] using hk
      | some q => rw [hq] at hp; exact hp ▸ ih hq
    · simp [predecessorKey, hk] at hp

theorem successorKey_gt {l : KV α} {h s : Nat}
    (hs : successorKey l h = some s) : h < s := by
  induction l with
  | nil => simp [successorKey] at hs
  | cons y t ih =>
    by_cases hk : h < y.1
    · simp only [successorKey, hk, if_true, Option.some.injEq] at hs
      exact hs ▸ hk
    · exact ih (by simpa [successorKey, hk] using hs)

theorem listTraverse_tmod (l : KV α) (f : Nat) (b : Int) :
    listTraverse l f b = listTraverse l f (b.tmod (l.length : Int)) := by
  unfold listTraverse
  by_cases h : l.length = 0
  · simp [h]
  · simp only [h, if_false]
    have hmod : ((rankOfKey l f : Int) + b) % (l.length : Int)
        = ((rankOfKey l f : Int) + b.tmod (l.length : Int)) % (l.length : Int) := by
      conv_lhs => rw [← Int.tmod_add_tdiv b (l.length : Int)]
      rw [← add_assoc, Int.add_mul_emod_self_left]
    rw [hmod]

/-! ### Claim C2 (amended): inside `move_by_wrapping`, the walk is invariant
under reducing the offset modulo the total weight of the tree *after* the
removal (one smaller than the original population). -/

/-- C2 (amended): `move_by_wrapping` gives the same result when its offset
is reduced (with Rust's truncating `%`, i.e. `Int.tmod`) modulo the weight
of the tree being walked, which is the post-removal weight
`(removeKey l node).length`, not the original population. -/
theorem move_by_wrapping_offset_tmod (B : Nat) (l : KV α) (node : Nat) (b : Int) :
    move_by_wrapping B l node b
      = move_by_wrapping B l node (b.tmod (((removeKey l node).length : Nat) : Int)) := by
  unfold move_by_wrapping
  cases hv : lookupValue l node with
  | none => rfl
  | some v =>
    simp only []
    rw [listTraverse_tmod (removeKey l node)
      ((successorKey l node).getD ((firstKey l).getD 0)) b]

/-- C2 counterexample: the claim reads the modulus as the pre-removal
population (`total_weight` = 10 in the unit-test container).  Offsets 16
and 6 are congruent modulo 10, yet `move_by_wrapping` sends the element
with value 5 to different places, so the walk is *not* performed modulo
the pre-removal weight. -/
theorem move_by_wrapping_pre_removal_modulus_cex :
    (16 : Int).tmod ((total_weight T10 : Nat) : Int) = 6 ∧
    move_by_wrapping 48 T10 (6 <<< 48) 16 ≠ move_by_wrapping 48 T10 (6 <<< 48) 6 := by
  constructor
  · decide
  · decide

/-! ### Claim C4 (amended): the concrete backward-wrapping move -/

/-- C4 (amended): on `[0,…,9]`, moving the element with value 7 (position
7) by `-8` produces `[0,1,2,3,4,5,6,8,7,9]`, exactly as the unit test
`test_moves_value_backward_wrapping` asserts. -/
theorem move_seven_by_neg_eight :
    (move_by_wrapping 48 T10 ((node_at_position T10 7).getD 0) (-8)).map ordered_values
      = some [0, 1, 2, 3, 4, 5, 6, 8, 7, 9] := by decide

/-- C4 counterexample: the spec's claimed result `[0,1,2,3,4,5,6,8,9,7]`
(the element wrapping to the tail) is what offset `-7` produces; offset
`-8` does not produce it. -/
theorem move_seven_by_neg_eight_cex :
    (move_by_wrapping 48 T10 ((node_at_position T10 7).getD 0) (-8)).map ordered_values
      ≠ some [0, 1, 2, 3, 4, 5, 6, 8, 9, 7] := by decide

/-! ### Claim C9: a single-element container can never complete a move -/

/-- C9: on a one-element container the removal empties the tree, and the
wrapping traversal then hits the fatal `unwrap` of the empty tree's root,
so `move_by_wrapping` never completes normally, for any offset: the
operation implicitly requires a population of at least 2. -/
theorem move_by_wrapping_singleton (B : Nat) (k : Nat) (v : α) (b : Int) :
    move_by_wrapping B [(k, v)] k b = none := by
  simp [move_by_wrapping, lookupValue, successorKey, removeKey, firstKey, listTraverse]

/-! ### Lemmas about sorted access, insertion position and removal -/

theorem lookupValue_mem {l : KV α} {h : Nat} {v : α}
    (hl : lookupValue l h = some v) : (h, v) ∈ l := by
  induction l with
  | nil => simp [lookupValue] at hl
  | cons y t ih =>
    by_cases hk : y.1 = h
    · simp only [lookupValue, hk, if_true, Option.some.injEq] at hl
      subst hl
      exact hk ▸ List.mem_cons_self _ _
    · simp only [lookupValue, hk, if_false] at hl
      exact List.mem_cons_of_mem _ (ih hl)

theorem sorted_head_lt {y : Nat × α} {t : KV α} (hs : sortedKeys (y :: t))
    {x : Nat × α} (hx : x ∈ t) : y.1 < x.1 :=
  (List.pairwise_cons.mp hs).1 x hx

theorem sorted_nth_lt {l : KV α} (hs : sortedKeys l) {i j : Nat} (hij : i < j)
    {a b : Nat × α} (ha : nth l i = some a) (hb : nth l j = some b) :
    a.1 < b.1 := by
  induction l generalizing i j with
  | nil => simp [nth] at ha
  | cons y t ih =>
    cases i with
    | zero =>
      cases j with
      | zero => omega
      | succ j' =>
        simp only [nth, Option.some.injEq] at ha
        exact ha ▸ sorted_head_lt hs (nth_mem (by simpa [nth] using hb))
    | succ i' =>
      cases j with
      | zero => omega
      | succ j' =>
        have ha' : nth t i' = some a := by simpa [nth] using ha
        have hb' : nth t j' = some b := by simpa [nth] using hb
        exact ih (List.pairwise_cons.mp hs).2 (by omega) ha' hb'

theorem rankOfKey_head {y : Nat × α} {t : KV α} : rankOfKey (y :: t) y.1 = 0 := by
  simp [rankOfKey]

theorem predecessorKey_head {y : Nat × α} {t : KV α} :
    predecessorKey (y :: t) y.1 = none := by
  simp [predecessorKey]

theorem predecessorKey_nth_zero {l : KV α} {dp : Nat × α}
    (h : nth l 0 = some dp) : predecessorKey l dp.1 = none := by
  cases l with
  | nil => simp [nth] at h
  | cons y t =>
    simp only [nth, Option.some.injEq] at h
    rw [← h]
    exact predecessorKey_head

theorem predecessorKey_adjacent {l : KV α} (hs : sortedKeys l) {i : Nat}
    {a b : Nat × α} (ha : nth l i = some a) (hb : nth l (i + 1) = some b) :
    predecessorKey l b.1 = some a.1 := by
  induction l generalizing i with
  | nil => simp [nth] at ha
  | cons y t ih =>
    cases i with
    | zero =>
      simp only [nth, Option.some.injEq] at ha
      subst ha
      have hbt : nth t 0 = some b := by simpa [nth] using hb
      have hyb : y.1 < b.1 := sorted_head_lt hs (nth_mem hbt)
      cases t with
      | nil => simp [nth] at hbt
      | cons z t' =>
        simp only [nth, Option.some.injEq] at hbt
        subst hbt
        simp [predecessorKey, hyb]
    | succ i' =>
      have hat : nth t i' = some a := by simpa [nth] using ha
      have hbt : nth t (i' + 1) = some b := by simpa [nth] using hb
      have hyb : y.1 < b.1 := sorted_head_lt hs (nth_mem hbt)
      have := ih (List.pairwise_cons.mp hs).2 hat hbt
      simp [predecessorKey, hyb, this]

theorem insert_weighted_adjacent {l : KV α} (hs : sortedKeys l) {i : Nat}
    {a b : Nat × α} (ha : nth l i = some a) (hb : nth l (i + 1) = some b)
    {k : Nat} (hak : a.1 < k) (hkb : k < b.1) (v : α) :
    insert_weighted l k v = insertAt (i + 1) (k, v) l := by
  induction l generalizing i with
  | nil => simp [nth] at ha
  | cons y t ih =>
    cases i with
    | zero =>
      simp only [nth, Option.some.injEq] at ha
      subst ha
      have hbt : nth t 0 = some b := by simpa [nth] using hb
      cases t with
      | nil => simp [nth] at hbt
      | cons z t' =>
        simp only [nth, Option.some.injEq] at hbt
        subst hbt
        have h1 : ¬ k < y.1 := by omega
        simp [insert_weighted, h1, hkb, insertAt]
    | succ i' =>
      have hat : nth t i' = some a := by simpa [nth] using ha
      have hbt : nth t (i' + 1) = some b := by simpa [nth] using hb
      have hya : y.1 < a.1 := sorted_head_lt hs (nth_mem hat)
      have h1 : ¬ k < y.1 := by omega
      simp only [insert_weighted, h1, if_false, insertAt]
      exact congrArg _ (ih (List.pairwise_cons.mp hs).2 hat hbt)

theorem lastKey_mem {l : KV α} {m : Nat} (hm : lastKey l = some m) :
    ∃ w, (m, w) ∈ l := by
  induction l with
  | nil => simp [lastKey] at hm
  | cons y t ih =>
    cases t with
    | nil =>
      simp only [lastKey, Option.some.injEq] at hm
      exact ⟨y.2, by simp [← hm]⟩
    | cons z t' =>
      obtain ⟨w, hw⟩ := ih (by simpa [lastKey] using hm)
      exact ⟨w, List.mem_cons_of_mem _ hw⟩

theorem sorted_le_last {l : KV α} (hs : sortedKeys l) {m : Nat}
    (hm : lastKey l = some m) : ∀ a ∈ l, a.1 ≤ m := by
  induction l with
  | nil => simp
  | cons y t ih =>
    intro a ha
    cases t with
    | nil =>
      simp only [lastKey, Option.some.injEq] at hm
      rcases List.mem_singleton.mp ha with rfl
      omega
    | cons z t' =>
      have hm' : lastKey (z :: t') = some m := by simpa [lastKey] using hm
      rcases List.mem_cons.mp ha with rfl | hat
      · obtain ⟨w, hw⟩ := lastKey_mem hm'
        exact le_of_lt (sorted_head_lt hs hw)
      · exact ih (List.pairwise_cons.mp hs).2 hm' a hat

theorem insert_weighted_big {l : KV α} {k : Nat}
    (h : ∀ a ∈ l, a.1 < k) (v : α) : insert_weighted l k v = l ++ [(k, v)] := by
  induction l with
  | nil => rfl
  | cons y t ih =>
    have h1 : ¬ k < y.1 := by
      have := h y (List.mem_cons_self _ _)
      omega
    simp only [insert_weighted, h1, if_false, List.cons_append]
    exact congrArg _ (ih (fun a ha => h a (List.mem_cons_of_mem _ ha)))

theorem lastKey_isSome {l : KV α} (h : l ≠ []) : ∃ m, lastKey l = some m := by
  induction l with
  | nil => exact absurd rfl h
  | cons y t ih =>
    cases t with
    | nil => exact ⟨y.1, rfl⟩
    | cons z t' =>
      obtain ⟨m, hm⟩ := ih (by simp)
      exact ⟨m, by simpa [lastKey] using hm⟩

theorem length_insertAt (n : Nat) (x : β) (l : List β) :
    (insertAt n x l).length = l.length + 1 := by
  induction n generalizing l with
  | zero => rfl
  | succ n' ih =>
    cases l with
    | nil => rfl
    | cons y t => simp [insertAt, ih]

theorem map_insertAt {γ : Type v} (f : β → γ) (n : Nat) (x : β) (l : List β) :
    (insertAt n x l).map f = insertAt n (f x) (l.map f) := by
  induction n generalizing l with
  | zero => rfl
  | succ n' ih =>
    cases l with
    | nil => rfl
    | cons y t => simp [insertAt, ih]

theorem isRotated_concat (v : β) (M : List β) :
    List.IsRotated (M ++ [v]) (v :: M) :=
  List.IsRotated.symm ⟨1, by rw [List.rotate_cons_succ, List.rotate_zero]⟩

/-! ### Claim C3: key allocation during reinsertion -/

/-- C3: when the destination of a move has a predecessor, the reinsertion
allocates the key `pred + ((dest - pred) >>> 1)`, which lies strictly
between the two keys whenever they differ by more than one, and the
operation fails (needs reindexing) exactly when the destination key is the
predecessor key plus one. -/
theorem reinsert_key_between (B : Nat) (l2 : KV α) (destKey : Nat) (v : α)
    (predKey : Nat) (hp : predecessorKey l2 destKey = some predKey) :
    (reinsert B l2 destKey v = none ↔ destKey = predKey + 1) ∧
    (predKey + 1 < destKey →
      reinsert B l2 destKey v
        = some (insert_weighted l2 (predKey + ((destKey - predKey) >>> 1)) v) ∧
      predKey < predKey + ((destKey - predKey) >>> 1) ∧
      predKey + ((destKey - predKey) >>> 1) < destKey) := by
  have hlt : predKey < destKey := predecessorKey_lt hp
  have h2 : (destKey - predKey) >>> 1 = (destKey - predKey) / 2 := by
    rw [Nat.shiftRight_eq_div_pow, pow_one]
  unfold reinsert
  rw [hp]
  constructor
  · by_cases h : destKey = predKey + 1 <;> simp [h]
  · intro hgt
    have hne : ¬ destKey = predKey + 1 := by omega
    simp only [hne, if_false]
    exact ⟨by trivial, by omega, by omega⟩

theorem reinsert_key_between_witness :
    predecessorKey [((2 : Nat), (0 : Nat)), (8, 1)] 8 = some 2 ∧
    ((reinsert 48 [((2 : Nat), (0 : Nat)), (8, 1)] 8 5 = none ↔ (8 : Nat) = 2 + 1) ∧
      (2 + 1 < 8 →
        reinsert 48 [((2 : Nat), (0 : Nat)), (8, 1)] 8 5
          = some (insert_weighted [((2 : Nat), (0 : Nat)), (8, 1)]
              (2 + ((8 - 2) >>> 1)) 5) ∧
        2 < 2 + ((8 - 2) >>> 1) ∧ 2 + ((8 - 2) >>> 1) < 8)) :=
  ⟨by decide, reinsert_key_between 48 [((2 : Nat), (0 : Nat)), (8, 1)] 8 5 2 (by decide)⟩

/-! ### Claim C5 (amended): append and prepend key allocation -/

/-- C5 (amended): `append` inserts one full interleaving gap
(`1 <<< B = 2 ^ B`) past the current maximum key, and `prepend` fails
exactly when the minimum key is 0 (or the tree is empty, where the Rust
code panics on `first(..).unwrap()`); but the key `prepend` allocates is
*half* the current minimum key (`min >>> 1`), not one interleaving gap
below it as the spec states. -/
theorem append_prepend_keys :
    (∀ (B : Nat), (1 <<< B : Nat) = 2 ^ B) ∧
    (∀ (B : Nat) (l : KV α) (v : α) (m : Nat), lastKey l = some m →
        append B l v = some (insert_weighted l (m + (1 <<< B)) v)) ∧
    (∀ (B : Nat) (l : KV α) (v : α) (m : Nat), firstKey l = some m → m ≠ 0 →
        prepend B l v = some (insert_weighted l (m >>> 1) v)) ∧
    (∀ (B : Nat) (l : KV α) (v : α),
        prepend B l v = none ↔ firstKey l = none ∨ firstKey l = some 0) := by
  refine ⟨fun B => Nat.shiftLeft_eq 1 B ▸ by ring, ?_, ?_, ?_⟩
  · intro B l v m hm
    simp [append, hm]
  · intro B l v m hm hm0
    simp [prepend, hm, hm0]
  · intro B l v
    cases hf : firstKey l with
    | none => simp [prepend, hf]
    | some m =>
      by_cases hm0 : m = 0 <;> simp [prepend, hf, hm0]

theorem append_prepend_keys_witness :
    lastKey [((2 : Nat), (7 : Nat))] = some 2 ∧
    append 4 [((2 : Nat), (7 : Nat))] 9
      = some (insert_weighted [((2 : Nat), (7 : Nat))] (2 + (1 <<< 4)) 9) ∧
    firstKey [((2 : Nat), (7 : Nat))] = some 2 ∧ (2 : Nat) ≠ 0 ∧
    prepend 4 [((2 : Nat), (7 : Nat))] 9
      = some (insert_weighted [((2 : Nat), (7 : Nat))] (2 >>> 1) 9) :=
  ⟨by decide,
    (append_prepend_keys (α := Nat)).2.1 4 [((2 : Nat), (7 : Nat))] 9 2 (by decide),
    by decide, by decide,
    (append_prepend_keys (α := Nat)).2.2.1 4 [((2 : Nat), (7 : Nat))] 9 2
      (by decide) (by decide)⟩

/-- C5 counterexample: starting from the one-element container whose
minimum key is `2 ^ 48`, `prepend` allocates the key `2 ^ 47` (half the
minimum), not the key one interleaving gap below the minimum
(`2 ^ 48 - 2 ^ 48 = 0`) that the claim prescribes. -/
theorem prepend_key_cex :
    prepend 48 [((1 <<< 48 : Nat), (0 : Nat))] 1
      = some [((1 <<< 47 : Nat), 1), (1 <<< 48, 0)] ∧
    (1 <<< 47 : Nat) ≠ prepend_key_spec 48 (1 <<< 48) := by
  constructor
  · decide
  · decide

/-! ### Claim C7: wraparound correctness of positional lookup -/

/-- C7: on a non-empty container, `node_at_position_wrapping` returns the
same handle for a rank and for that rank shifted by any multiple of the
total weight. -/
theorem node_at_position_wrapping_mod (l : KV α) (hne : l ≠ []) (pos k : Nat) :
    node_at_position_wrapping l pos
      = node_at_position_wrapping l (pos + k * total_weight l) := by
  have hlen : l.length ≠ 0 := by simpa [List.length_eq_zero] using hne
  unfold node_at_position_wrapping total_weight
  rw [Nat.add_mul_mod_self_right]

theorem node_at_position_wrapping_mod_witness :
    ([((1 : Nat), (10 : Nat)), (2, 20)] : ShuffleTree.KV Nat) ≠ [] ∧
    node_at_position_wrapping [((1 : Nat), (10 : Nat)), (2, 20)] 5
      = node_at_position_wrapping [((1 : Nat), (10 : Nat)), (2, 20)]
          (5 + 3 * total_weight [((1 : Nat), (10 : Nat)), (2, 20)]) :=
  ⟨by decide, node_at_position_wrapping_mod [((1 : Nat), (10 : Nat)), (2, 20)]
    (by decide) 5 3⟩

/-! ### Claim C1: the general postcondition of `move_by_wrapping` -/

theorem listTraverse_nth {l : KV α} (hl : 0 < l.length) (f : Nat) (b : Int)
    {dp : Nat × α}
    (hdp : nth l ((((rankOfKey l f : Int) + b) % (l.length : Int)).toNat) = some dp) :
    listTraverse l f b = some dp.1 := by
  unfold listTraverse nthKey
  rw [if_neg (by omega), hdp]
  rfl

theorem move_spec (B : Nat) (l : KV α) (node : Nat) (v : α) (off : Int)
    (L' : KV α) (hsort : sortedKeys l) (hlen : 2 ≤ l.length)
    (hval : lookupValue l node = some v)
    (hmv : move_by_wrapping B l node off = some L') :
    L'.length = l.length ∧
    List.IsRotated (ordered_values L')
      (insertAt ((((rankOfKey (removeKey l node)
          ((successorKey l node).getD ((firstKey l).getD 0)) : Int) + off)
          % ((removeKey l node).length : Int)).toNat) v
        (ordered_values (removeKey l node))) := by
  have hlen2 : (removeKey l node).length + 1 = l.length := length_removeKey hval
  set succ := (successorKey l node).getD ((firstKey l).getD 0) with hsucc
  set l2 := removeKey l node with hl2def
  have hl2pos : 0 < l2.length := by omega
  have hsort2 : sortedKeys l2 := sortedKeys_removeKey hsort node
  set dI : Int := ((rankOfKey l2 succ : Int) + off) % (l2.length : Int) with hdIdef
  have hWne : (l2.length : Int) ≠ 0 := by exact_mod_cast Nat.pos_iff_ne_zero.mp hl2pos
  have hd0 : 0 ≤ dI := Int.emod_nonneg _ hWne
  have hdlt : dI < (l2.length : Int) := Int.emod_lt_of_pos _ (by exact_mod_cast hl2pos)
  have hdn : dI.toNat < l2.length := by omega
  obtain ⟨dp, hdp⟩ := nth_eq_some_of_lt hdn
  unfold move_by_wrapping at hmv
  rw [hval] at hmv
  simp only [] at hmv
  rw [← hsucc, ← hl2def] at hmv
  rw [listTraverse_nth hl2pos succ off hdp] at hmv
  simp only [] at hmv
  cases hD : dI.toNat with
  | zero =>
    rw [hD] at hdp
    have hpred : predecessorKey l2 dp.1 = none := predecessorKey_nth_zero hdp
    unfold reinsert at hmv
    rw [hpred] at hmv
    simp only [] at hmv
    obtain ⟨m, hmk⟩ := lastKey_isSome (List.length_pos.mp hl2pos)
    unfold append at hmv
    rw [hmk] at hmv
    simp only [Option.some.injEq] at hmv
    have hbig : ∀ a ∈ l2, a.1 < m + (1 <<< B) := by
      intro a ha
      have h1 := sorted_le_last hsort2 hmk a ha
      have h2 : 0 < (1 <<< B : Nat) := by
        rw [Nat.shiftLeft_eq]
        positivity
      omega
    rw [insert_weighted_big hbig v] at hmv
    constructor
    · rw [← hmv, List.length_append, List.length_singleton]
      omega
    · rw [← hmv]
      have hov : ordered_values (l2 ++ [(m + (1 <<< B), v)])
          = ordered_values l2 ++ [v] := by
        simp [ordered_values]
      rw [hov]
      exact isRotated_concat v (ordered_values l2)
  | succ d' =>
    rw [hD] at hdp
    have hd'lt : d' < l2.length := by omega
    obtain ⟨ap, hap⟩ := nth_eq_some_of_lt hd'lt
    have hpred : predecessorKey l2 dp.1 = some ap.1 :=
      predecessorKey_adjacent hsort2 hap hdp
    have hab : ap.1 < dp.1 := sorted_nth_lt hsort2 (by omega) hap hdp
    unfold reinsert at hmv
    rw [hpred] at hmv
    simp only [] at hmv
    by_cases he : dp.1 = ap.1 + 1
    · rw [if_pos he] at hmv; cases hmv
    · rw [if_neg he] at hmv
      simp only [Option.some.injEq] at hmv
      have hsh : (dp.1 - ap.1) >>> 1 = (dp.1 - ap.1) / 2 := by
        rw [Nat.shiftRight_eq_div_pow, pow_one]
      have hak : ap.1 < ap.1 + ((dp.1 - ap.1) >>> 1) := by omega
      have hkb : ap.1 + ((dp.1 - ap.1) >>> 1) < dp.1 := by omega
      rw [insert_weighted_adjacent hsort2 hap hdp hak hkb v] at hmv
      constructor
      · rw [← hmv, length_insertAt]
        omega
      · rw [← hmv]
        have hov : ordered_values (insertAt (d' + 1)
              (ap.1 + ((dp.1 - ap.1) >>> 1), v) l2)
            = insertAt (d' + 1) v (ordered_values l2) :=
          map_insertAt Prod.snd (d' + 1) _ l2
        rw [hov]

/-- C1: for a sorted container of at least two elements and a valid handle,
a completed `move_by_wrapping` keeps the population size unchanged and, up
to the arbitrary circular cut point, the resulting value sequence is the
one-smaller sequence (the container with the moved element removed) with
the moved value reinserted exactly `offset` positions — counted modulo the
element count excluding the moved element — after the removed node's
circular successor (remove-self-then-count-from-neighbor semantics). -/
theorem move_by_wrapping_correct (B : Nat) (l : KV α) (node : Nat) (v : α)
    (off : Int) (L' : KV α) (hsort : sortedKeys l) (hlen : 2 ≤ l.length)
    (hval : lookupValue l node = some v)
    (hmv : move_by_wrapping B l node off = some L') :
    L'.length = l.length ∧
    List.IsRotated (ordered_values L')
      (insertAt ((((rankOfKey (removeKey l node)
          ((successorKey l node).getD ((firstKey l).getD 0)) : Int) + off)
          % ((removeKey l node).length : Int)).toNat) v
        (ordered_values (removeKey l node))) :=
  move_spec B l node v off L' hsort hlen hval hmv

theorem move_by_wrapping_correct_witness :
    sortedKeys [((1 : Nat), (10 : Nat)), (2, 20), (3, 30)] ∧
    2 ≤ ([((1 : Nat), (10 : Nat)), (2, 20), (3, 30)] : KV Nat).length ∧
    lookupValue [((1 : Nat), (10 : Nat)), (2, 20), (3, 30)] 2 = some 20 ∧
    move_by_wrapping 4 [((1 : Nat), (10 : Nat)), (2, 20), (3, 30)] 2 1
      = some [((1 : Nat), (10 : Nat)), (3, 30), (19, 20)] ∧
    (([((1 : Nat), (10 : Nat)), (3, 30), (19, 20)] : KV Nat).length
        = ([((1 : Nat), (10 : Nat)), (2, 20), (3, 30)] : KV Nat).length ∧
      List.IsRotated
        (ordered_values [((1 : Nat), (10 : Nat)), (3, 30), (19, 20)])
        (insertAt ((((rankOfKey
              (removeKey [((1 : Nat), (10 : Nat)), (2, 20), (3, 30)] 2)
              ((successorKey [((1 : Nat), (10 : Nat)), (2, 20), (3, 30)] 2).getD
                ((firstKey [((1 : Nat), (10 : Nat)), (2, 20), (3, 30)]).getD 0))
              : Int) + 1)
            % ((removeKey [((1 : Nat), (10 : Nat)), (2, 20), (3, 30)] 2).length
              : Int)).toNat) 20
          (ordered_values
            (removeKey [((1 : Nat), (10 : Nat)), (2, 20), (3, 30)] 2)))) :=
  ⟨by decide, by decide, by decide, by decide,
    move_by_wrapping_correct 4 [((1 : Nat), (10 : Nat)), (2, 20), (3, 30)] 2 20
      1 [((1 : Nat), (10 : Nat)), (3, 30), (19, 20)]
      (by decide) (by decide) (by decide) (by decide)⟩

/-! ### Claim C6: moving by a multiple of `total_weight() - 1` restores the
circular order -/

theorem successorKey_mem {l : KV α} {h s : Nat}
    (hs : successorKey l h = some s) : ∃ w, (s, w) ∈ l := by
  induction l with
  | nil => simp [successorKey] at hs
  | cons y t ih =>
    by_cases hk : h < y.1
    · simp only [successorKey, hk, if_true, Option.some.injEq] at hs
      exact ⟨y.2, by simp [← hs]⟩
    · obtain ⟨w, hw⟩ := ih (by simpa [successorKey, hk] using hs)
      exact ⟨w, List.mem_cons_of_mem _ hw⟩

theorem mem_removeKey {l : KV α} {a : Nat × α} {h : Nat}
    (ha : a ∈ l) (hne : a.1 ≠ h) : a ∈ removeKey l h := by
  induction l with
  | nil => simp at ha
  | cons y t ih =>
    by_cases hk : y.1 = h
    · rcases List.mem_cons.mp ha with rfl | hat
      · exact absurd hk hne
      · simpa [removeKey, hk] using hat
    · rcases List.mem_cons.mp ha with rfl | hat
      · simp [removeKey, hk]
      · simp only [removeKey, hk, if_false]
        exact List.mem_cons_of_mem _ (ih hat)

theorem rankOfKey_lt_of_mem {l : KV α} {h : Nat} {w : α}
    (hm : (h, w) ∈ l) : rankOfKey l h < l.length := by
  induction l with
  | nil => simp at hm
  | cons y t ih =>
    by_cases hk : y.1 < h
    · have hyt : (h, w) ∈ t := by
        rcases List.mem_cons.mp hm with he | hat
        · exact absurd (congrArg Prod.fst he).symm (by simp; omega)
        · exact hat
      simp only [rankOfKey, hk, if_true, List.length_cons]
      exact Nat.succ_lt_succ (ih hyt)
    · simp [rankOfKey, hk]

theorem remove_insert_succ {l : KV α} {node : Nat} {v : α} {sk : Nat}
    (hsort : sortedKeys l) (hval : lookupValue l node = some v)
    (hsk : successorKey l node = some sk) :
    insertAt (rankOfKey (removeKey l node) sk) v
      (ordered_values (removeKey l node)) = ordered_values l := by
  induction l with
  | nil => simp [lookupValue] at hval
  | cons y t ih =>
    by_cases hy : y.1 = node
    · simp only [lookupValue, hy, if_true, Option.some.injEq] at hval
      have hsk' : successorKey t node = some sk := by
        simpa [successorKey, hy, lt_irrefl] using hsk
      cases t with
      | nil => simp [successorKey] at hsk'
      | cons z t' =>
        have hz : node < z.1 := hy ▸ sorted_head_lt hsort (List.mem_cons_self _ _)
        have hskz : sk = z.1 := by
          simpa [successorKey, hz] using hsk'.symm
        rw [show removeKey (y :: z :: t') node = z :: t' by simp [removeKey, hy]]
        rw [hskz, rankOfKey_head]
        simp [insertAt, ordered_values, hval]
    · simp only [lookupValue, hy, if_false] at hval
      have hmem : (node, v) ∈ t := lookupValue_mem hval
      have hyn : y.1 < node := sorted_head_lt hsort hmem
      have hsk' : successorKey t node = some sk := by
        simpa [successorKey, show ¬ node < y.1 by omega] using hsk
      have hns := successorKey_gt hsk'
      rw [show removeKey (y :: t) node = y :: removeKey t node by
        simp [removeKey, hy]]
      rw [show rankOfKey (y :: removeKey t node) sk
          = rankOfKey (removeKey t node) sk + 1 by
        simp [rankOfKey, show y.1 < sk by omega]]
      show y.2 :: insertAt (rankOfKey (removeKey t node) sk) v
          (ordered_values (removeKey t node)) = y.2 :: ordered_values t
      rw [ih (List.pairwise_cons.mp hsort).2 hval hsk']

theorem remove_insert_last {l : KV α} {node : Nat} {v : α}
    (hsort : sortedKeys l) (hval : lookupValue l node = some v)
    (hsk : successorKey l node = none) :
    l = removeKey l node ++ [(node, v)] := by
  induction l with
  | nil => simp [lookupValue] at hval
  | cons y t ih =>
    by_cases hy : y.1 = node
    · simp only [lookupValue, hy, if_true, Option.some.injEq] at hval
      cases t with
      | nil =>
        simp only [removeKey, hy, if_true, List.nil_append]
        cases y
        simp at hy hval
        simp [hy, hval]
      | cons z t' =>
        have hz : node < z.1 := hy ▸ sorted_head_lt hsort (List.mem_cons_self _ _)
        have : successorKey (z :: t') node = some z.1 := by
          simp [successorKey, hz]
        rw [show successorKey (y :: z :: t') node = successorKey (z :: t') node by
          simp [successorKey, hy, lt_irrefl]] at hsk
        rw [this] at hsk
        cases hsk
    · simp only [lookupValue, hy, if_false] at hval
      have hmem : (node, v) ∈ t := lookupValue_mem hval
      have hyn : y.1 < node := sorted_head_lt hsort hmem
      have hsk' : successorKey t node = none := by
        simpa [successorKey, show ¬ node < y.1 by omega] using hsk
      rw [show removeKey (y :: t) node = y :: removeKey t node by
        simp [removeKey, hy]]
      rw [List.cons_append]
      exact congrArg _ (ih (List.pairwise_cons.mp hsort).2 hval hsk')

/-- C6: for a sorted container of at least two elements and a valid handle,
a completed `move_by_wrapping` whose offset is any integer multiple of
`total_weight() - 1` (zero included) leaves the circular order of the
values unchanged: the moved element ends up in its original position
relative to every other element. -/
theorem move_by_multiple_restores (B : Nat) (l : KV α) (node : Nat) (v : α)
    (k : Int) (L' : KV α) (hsort : sortedKeys l) (hlen : 2 ≤ l.length)
    (hval : lookupValue l node = some v)
    (hmv : move_by_wrapping B l node (k * ((total_weight l : Int) - 1))
      = some L') :
    List.IsRotated (ordered_values L') (ordered_values l) := by
  obtain ⟨hlenEq, hrot⟩ := move_spec B l node v _ L' hsort hlen hval hmv
  have hlen2 : (removeKey l node).length + 1 = l.length := length_removeKey hval
  have hl2pos : 0 < (removeKey l node).length := by omega
  have hW : (total_weight l : Int) - 1 = ((removeKey l node).length : Int) := by
    unfold total_weight
    push_cast
    omega
  cases hsk : successorKey l node with
  | some sk =>
    rw [hsk] at hrot
    simp only [Option.getD_some] at hrot
    obtain ⟨w, hw⟩ := successorKey_mem hsk
    have hgt := successorKey_gt hsk
    have hmem2 : (sk, w) ∈ removeKey l node :=
      mem_removeKey hw (show sk ≠ node by omega)
    have hsn : rankOfKey (removeKey l node) sk < (removeKey l node).length :=
      rankOfKey_lt_of_mem hmem2
    have hidx : (((rankOfKey (removeKey l node) sk : Int)
        + k * ((total_weight l : Int) - 1))
        % ((removeKey l node).length : Int)).toNat
        = rankOfKey (removeKey l node) sk := by
      rw [hW, Int.add_mul_emod_self,
        Int.emod_eq_of_lt (by positivity) (by exact_mod_cast hsn)]
      simp
    rw [hidx, remove_insert_succ hsort hval hsk] at hrot
    exact hrot
  | none =>
    rw [hsk] at hrot
    simp only [Option.getD_none] at hrot
    have hll : l = removeKey l node ++ [(node, v)] :=
      remove_insert_last hsort hval hsk
    obtain ⟨c, t, hct⟩ := List.exists_cons_of_ne_nil (List.length_pos.mp hl2pos)
    have hfirst : firstKey l = some c.1 := by
      rw [hll, hct]
      rfl
    rw [hfirst] at hrot
    simp only [Option.getD_some] at hrot
    have hrank : rankOfKey (removeKey l node) c.1 = 0 := by
      rw [hct]
      exact rankOfKey_head
    have hidx : (((rankOfKey (removeKey l node) c.1 : Int)
        + k * ((total_weight l : Int) - 1))
        % ((removeKey l node).length : Int)).toNat = 0 := by
      rw [hrank, hW]
      simp [Int.mul_emod_left]
    rw [hidx] at hrot
    have hov : ordered_values l = ordered_values (removeKey l node) ++ [v] := by
      conv_lhs => rw [hll]
      simp [ordered_values]
    rw [hov]
    exact hrot.trans
      (List.IsRotated.symm (isRotated_concat v (ordered_values (removeKey l node))))

theorem move_by_multiple_restores_witness :
    sortedKeys [((1 : Nat), (10 : Nat)), (2, 20), (3, 30)] ∧
    2 ≤ ([((1 : Nat), (10 : Nat)), (2, 20), (3, 30)] : KV Nat).length ∧
    lookupValue [((1 : Nat), (10 : Nat)), (2, 20), (3, 30)] 2 = some 20 ∧
    move_by_wrapping 4 [((1 : Nat), (10 : Nat)), (2, 20), (3, 30)] 2
        (0 * ((total_weight [((1 : Nat), (10 : Nat)), (2, 20), (3, 30)] : Int) - 1))
      = some [((1 : Nat), (10 : Nat)), (2, 20), (3, 30)] ∧
    List.IsRotated
      (ordered_values [((1 : Nat), (10 : Nat)), (2, 20), (3, 30)])
      (ordered_values [((1 : Nat), (10 : Nat)), (2, 20), (3, 30)]) :=
  ⟨by decide, by decide, by decide, by decide,
    move_by_multiple_restores 4 [((1 : Nat), (10 : Nat)), (2, 20), (3, 30)] 2 20
      0 [((1 : Nat), (10 : Nat)), (2, 20), (3, 30)]
      (by decide) (by decide) (by decide) (by decide)⟩

/-! ### Claim C8: how operations change the total weight -/

theorem reinsert_length {B : Nat} {l2 : KV α} {dk : Nat} {v : α} {L' : KV α}
    (h : reinsert B l2 dk v = some L') : L'.length = l2.length + 1 := by
  unfold reinsert at h
  cases hp : predecessorKey l2 dk with
  | none =>
    rw [hp] at h
    unfold append at h
    cases hl : lastKey l2 with
    | none => rw [hl] at h; cases h
    | some m =>
      rw [hl] at h
      simp only [Option.some.injEq] at h
      rw [← h, length_insert_weighted]
  | some pk =>
    rw [hp] at h
    by_cases he : dk = pk + 1
    · simp [he] at h
    · simp only [he, if_false, Option.some.injEq] at h
      rw [← h, length_insert_weighted]

/-- C8: a completed `move_by_wrapping` leaves the total weight unchanged,
while `append` and `prepend` each increase it by exactly one (these are the
only operations that mutate the tree). -/
theorem total_weight_changes (B : Nat) :
    (∀ (l : KV α) (node : Nat) (b : Int) (L' : KV α),
        move_by_wrapping B l node b = some L' → total_weight L' = total_weight l) ∧
    (∀ (l : KV α) (v : α) (L' : KV α),
        append B l v = some L' → total_weight L' = total_weight l + 1) ∧
    (∀ (l : KV α) (v : α) (L' : KV α),
        prepend B l v = some L' → total_weight L' = total_weight l + 1) := by
  refine ⟨?_, ?_, ?_⟩
  · intro l node b L' hmv
    unfold move_by_wrapping at hmv
    cases hv : lookupValue l node with
    | none => rw [hv] at hmv; cases hmv
    | some v =>
      rw [hv] at hmv
      simp only [] at hmv
      cases ht : listTraverse (removeKey l node)
          ((successorKey l node).getD ((firstKey l).getD 0)) b with
      | none => rw [ht] at hmv; cases hmv
      | some dk =>
        rw [ht] at hmv
        have h1 := reinsert_length hmv
        have h2 := length_removeKey hv
        simp only [total_weight]
        omega
  · intro l v L' ha
    unfold append at ha
    cases hl : lastKey l with
    | none => rw [hl] at ha; cases ha
    | some m =>
      rw [hl] at ha
      simp only [Option.some.injEq] at ha
      simp only [total_weight, ← ha, length_insert_weighted]
  · intro l v L' ha
    unfold prepend at ha
    cases hf : firstKey l with
    | none => rw [hf] at ha; cases ha
    | some m =>
      rw [hf] at ha
      by_cases hm0 : m = 0
      · simp [hm0] at ha
      · simp only [hm0, if_false, Option.some.injEq] at ha
        simp only [total_weight, ← ha, length_insert_weighted]

theorem total_weight_changes_witness :
    (move_by_wrapping 4 [((1 : Nat), (0 : Nat)), (2, 1)] 1 0
        = some [((2 : Nat), (1 : Nat)), (18, 0)] ∧
      total_weight [((2 : Nat), (1 : Nat)), (18, 0)]
        = total_weight [((1 : Nat), (0 : Nat)), (2, 1)]) ∧
    (append 4 [((2 : Nat), (1 : Nat))] 5 = some [((2 : Nat), (1 : Nat)), (18, 5)] ∧
      total_weight [((2 : Nat), (1 : Nat)), (18, 5)]
        = total_weight [((2 : Nat), (1 : Nat))] + 1) ∧
    (prepend 4 [((2 : Nat), (1 : Nat))] 5 = some [((1 : Nat), (5 : Nat)), (2, 1)] ∧
      total_weight [((1 : Nat), (5 : Nat)), (2, 1)]
        = total_weight [((2 : Nat), (1 : Nat))] + 1) :=
  ⟨⟨by decide, (total_weight_changes 4).1 [((1 : Nat), (0 : Nat)), (2, 1)] 1 0
      [((2 : Nat), (1 : Nat)), (18, 0)] (by decide)⟩,
    ⟨by decide, (total_weight_changes 4).2.1 [((2 : Nat), (1 : Nat))] 5
      [((2 : Nat), (1 : Nat)), (18, 5)] (by decide)⟩,
    ⟨by decide, (total_weight_changes 4).2.2 [((2 : Nat), (1 : Nat))] 5
      [((1 : Nat), (5 : Nat)), (2, 1)] (by decide)⟩⟩

/-! ### Tree-level groundwork: weights, ranks and the in-order view -/

theorem weight_focus (t : Loc α) : weight t.focus = weight t.l + 1 + weight t.r :=
  rfl

theorem weight_plugCtx (ctx : Ctx α) (s : BT α) :
    weight (plugCtx s ctx) = weight s + ctxWeight ctx := by
  induction ctx generalizing s with
  | nil => simp [plugCtx, ctxWeight]
  | cons f rest ih =>
    cases f with
    | left pk pv sib =>
      show weight (plugCtx (BT.node s pk pv sib) rest) = _
      rw [ih]
      show weight s + 1 + weight sib + ctxWeight rest = _
      simp [ctxWeight]
      omega
    | right sib pk pv =>
      show weight (plugCtx (BT.node sib pk pv s) rest) = _
      rw [ih]
      simp [ctxWeight, weight]
      omega

theorem ctxRank_le_ctxWeight (ctx : Ctx α) : ctxRank ctx ≤ ctxWeight ctx := by
  induction ctx with
  | nil => exact le_refl _
  | cons f rest ih =>
    cases f with
    | left pk pv sib => simp [ctxRank, ctxWeight]; omega
    | right sib pk pv => simp [ctxRank, ctxWeight]; omega

theorem weight_plug_eq (t : Loc α) :
    weight t.plug = weight t.l + 1 + weight t.r + ctxWeight t.ctx := by
  rw [Loc.plug, weight_plugCtx, weight_focus]

theorem weight_plug_pos (t : Loc α) : 0 < weight t.plug := by
  rw [weight_plug_eq]
  omega

theorem rank_add_wr_lt (t : Loc α) : t.rank + weight t.r < weight t.plug := by
  have h1 := ctxRank_le_ctxWeight t.ctx
  rw [weight_plug_eq, Loc.rank]
  omega

theorem rank_lt_plug (t : Loc α) : t.rank < weight t.plug := by
  have := rank_add_wr_lt t
  omega

theorem wl_lt_plug (t : Loc α) : weight t.l < weight t.plug := by
  rw [weight_plug_eq]
  omega

theorem wr_lt_plug (t : Loc α) : weight t.r < weight t.plug := by
  rw [weight_plug_eq]
  omega

theorem rank_ge_wl (t : Loc α) : weight t.l ≤ t.rank := Nat.le_add_right _ _

theorem plug_down_right (t : Loc α) {rl : BT α} {rk : Nat} {rv : α} {rr : BT α}
    (h : t.r = BT.node rl rk rv rr) :
    Loc.plug ⟨Frame.right t.l t.k t.v :: t.ctx, rl, rk, rv, rr⟩ = t.plug := by
  simp [Loc.plug, Loc.focus, plugCtx, h]

theorem rank_down_right (t : Loc α) {rl : BT α} {rk : Nat} {rv : α} {rr : BT α}
    (h : t.r = BT.node rl rk rv rr) :
    Loc.rank ⟨Frame.right t.l t.k t.v :: t.ctx, rl, rk, rv, rr⟩
      = t.rank + weight rl + 1 := by
  simp [Loc.rank, ctxRank]
  omega

theorem plug_down_left (t : Loc α) {ll : BT α} {lk : Nat} {lv : α} {lr : BT α}
    (h : t.l = BT.node ll lk lv lr) :
    Loc.plug ⟨Frame.left t.k t.v t.r :: t.ctx, ll, lk, lv, lr⟩ = t.plug := by
  simp [Loc.plug, Loc.focus, plugCtx, h]

theorem rank_down_left (t : Loc α) {ll : BT α} {lk : Nat} {lv : α} {lr : BT α}
    (h : t.l = BT.node ll lk lv lr) :
    Loc.rank ⟨Frame.left t.k t.v t.r :: t.ctx, ll, lk, lv, lr⟩ + weight lr + 1
      = t.rank := by
  simp [Loc.rank, ctxRank, h, weight]
  omega

theorem plug_up_left (t : Loc α) {pk : Nat} {pv : α} {sib : BT α}
    {rest : Ctx α} (h : t.ctx = Frame.left pk pv sib :: rest) :
    Loc.plug ⟨rest, t.focus, pk, pv, sib⟩ = t.plug := by
  simp [Loc.plug, Loc.focus, plugCtx, h]

theorem rank_up_left (t : Loc α) {pk : Nat} {pv : α} {sib : BT α}
    {rest : Ctx α} (h : t.ctx = Frame.left pk pv sib :: rest) :
    Loc.rank ⟨rest, t.focus, pk, pv, sib⟩ = t.rank + weight t.r + 1 := by
  simp [Loc.rank, ctxRank, h, Loc.focus, weight]
  omega

theorem plug_up_right (t : Loc α) {pk : Nat} {pv : α} {sib : BT α}
    {rest : Ctx α} (h : t.ctx = Frame.right sib pk pv :: rest) :
    Loc.plug ⟨rest, sib, pk, pv, t.focus⟩ = t.plug := by
  simp [Loc.plug, Loc.focus, plugCtx, h]

theorem rank_up_right (t : Loc α) {pk : Nat} {pv : α} {sib : BT α}
    {rest : Ctx α} (h : t.ctx = Frame.right sib pk pv :: rest) :
    Loc.rank ⟨rest, sib, pk, pv, t.focus⟩ + weight t.l + 1 = t.rank := by
  simp [Loc.rank, ctxRank, h]
  omega

theorem cdtp_zero (l : BT α) (k : Nat) (v : α) (r : BT α) :
    child_distance_to_parent (BT.node l k v r) 0 = weight l + 1 := by
  cases l <;> simp [child_distance_to_parent, childOf, weight]

theorem cdtp_one (l : BT α) (k : Nat) (v : α) (r : BT α) :
    child_distance_to_parent (BT.node l k v r) 1 = weight r + 1 := by
  cases r <;> simp [child_distance_to_parent, childOf, weight]

theorem tmod_eq_self {b W : Int} (hW : 0 < W) (h1 : -W < b) (h2 : b < W) :
    b.tmod W = b := by
  cases b with
  | ofNat m =>
    cases W with
    | ofNat n =>
      simp only [Int.ofNat_eq_coe] at h2
      have hmn : m < n := by exact_mod_cast h2
      show Int.ofNat (m % n) = Int.ofNat m
      rw [Nat.mod_eq_of_lt hmn]
    | negSucc n =>
      rw [Int.negSucc_eq] at hW
      omega
  | negSucc m =>
    cases W with
    | ofNat n =>
      simp only [Int.ofNat_eq_coe] at h1
      rw [Int.negSucc_eq] at h1
      have hmn : m + 1 < n := by omega
      show -Int.ofNat ((m + 1) % n) = Int.negSucc m
      rw [Nat.mod_eq_of_lt hmn]
      simp [Int.negSucc_eq, Int.ofNat_eq_coe]
    | negSucc n =>
      rw [Int.negSucc_eq] at hW
      omega

theorem tmod_bounds {b W : Int} (hW : 0 < W) :
    -W < b.tmod W ∧ b.tmod W < W := by
  cases b with
  | ofNat m =>
    cases W with
    | ofNat n =>
      simp only [Int.ofNat_eq_coe] at hW
      have hn : 0 < n := by exact_mod_cast hW
      have := Nat.mod_lt m hn
      show -Int.ofNat n < Int.ofNat (m % n) ∧ Int.ofNat (m % n) < Int.ofNat n
      simp only [Int.ofNat_eq_coe]
      omega
    | negSucc n =>
      rw [Int.negSucc_eq] at hW
      omega
  | negSucc m =>
    cases W with
    | ofNat n =>
      simp only [Int.ofNat_eq_coe] at hW
      have hn : 0 < n := by exact_mod_cast hW
      have := Nat.mod_lt (m + 1) hn
      show -Int.ofNat n < -Int.ofNat ((m + 1) % n)
        ∧ -Int.ofNat ((m + 1) % n) < Int.ofNat n
      simp only [Int.ofNat_eq_coe]
      omega
    | negSucc n =>
      rw [Int.negSucc_eq] at hW
      omega

theorem tmod_emod (b W : Int) : (b.tmod W) % W = b % W := by
  conv_rhs => rw [← Int.tmod_add_tdiv b W]
  rw [Int.add_mul_emod_self_left]

theorem tmod_idem {b W : Int} (hW : 0 < W) : (b.tmod W).tmod W = b.tmod W := by
  obtain ⟨h1, h2⟩ := tmod_bounds (b := b) hW
  exact tmod_eq_self hW h1 h2

theorem tdiv_natAbs_pos {b : Int} (hb : 0 < b) : b.tdiv (b.natAbs : Int) = 1 := by
  rw [Int.natAbs_of_nonneg (by omega)]
  exact Int.tdiv_self (by omega)

theorem tdiv_natAbs_neg {b : Int} (hb : b < 0) : b.tdiv (b.natAbs : Int) = -1 := by
  have h1 : (b.natAbs : Int) = -b := by omega
  rw [h1, Int.tdiv_neg, Int.tdiv_self (by omega)]

theorem inorder_length (s : BT α) : (inorder s).length = weight s := by
  induction s with
  | leaf => rfl
  | node l k v r ihl ihr =>
    simp [inorder, weight, ihl, ihr]
    omega

theorem nth_append_left {xs ys : List β} {i : Nat} (h : i < xs.length) :
    nth (xs ++ ys) i = nth xs i := by
  induction xs generalizing i with
  | nil => simp at h
  | cons x xs ih =>
    cases i with
    | zero => rfl
    | succ j => exact ih (by simpa using h)

theorem nth_append_cons (xs : List β) (y : β) (ys : List β) (i : Nat) :
    nth (xs ++ y :: ys) (xs.length + (i + 1)) = nth ys i := by
  induction xs with
  | nil => simp [nth]
  | cons x xs ih =>
    have hidx : (x :: xs).length + (i + 1) = (xs.length + (i + 1)) + 1 := by
      simp
      omega
    rw [List.cons_append, hidx]
    show nth (xs ++ y :: ys) (xs.length + (i + 1)) = nth ys i
    exact ih

theorem nth_append_self (xs : List β) (y : β) (ys : List β) :
    nth (xs ++ y :: ys) xs.length = some y := by
  induction xs with
  | nil => rfl
  | cons x xs ih =>
    rw [List.cons_append]
    show nth (xs ++ y :: ys) xs.length = some y
    exact ih

theorem nth_inorder_plugCtx (ctx : Ctx α) (s : BT α) (i : Nat)
    (h : i < (inorder s).length) :
    nth (inorder (plugCtx s ctx)) (i + ctxRank ctx) = nth (inorder s) i := by
  induction ctx generalizing s i with
  | nil => simp [plugCtx, ctxRank]
  | cons f rest ih =>
    cases f with
    | left pk pv sib =>
      have h' : i < (inorder (BT.node s pk pv sib)).length := by
        simp [inorder]
        omega
      calc nth (inorder (plugCtx s (Frame.left pk pv sib :: rest)))
            (i + ctxRank (Frame.left pk pv sib :: rest))
          = nth (inorder (plugCtx (BT.node s pk pv sib) rest)) (i + ctxRank rest) :=
            rfl
        _ = nth (inorder (BT.node s pk pv sib)) i := ih _ i h'
        _ = nth (inorder s ++ (pk, pv) :: inorder sib) i := rfl
        _ = nth (inorder s) i := nth_append_left h
    | right sib pk pv =>
      have h' : i + ((inorder sib).length + 1)
          < (inorder (BT.node sib pk pv s)).length := by
        simp [inorder]
        omega
      have hidx : i + ctxRank (Frame.right sib pk pv :: rest)
          = (i + ((inorder sib).length + 1)) + ctxRank rest := by
        simp [ctxRank, inorder_length]
        omega
      have hidx2 : i + ((inorder sib).length + 1)
          = (inorder sib).length + (i + 1) := by omega
      calc nth (inorder (plugCtx s (Frame.right sib pk pv :: rest)))
            (i + ctxRank (Frame.right sib pk pv :: rest))
          = nth (inorder (plugCtx (BT.node sib pk pv s) rest))
            ((i + ((inorder sib).length + 1)) + ctxRank rest) := by rw [hidx]; rfl
        _ = nth (inorder (BT.node sib pk pv s)) (i + ((inorder sib).length + 1)) :=
            ih _ _ h'
        _ = nth (inorder sib ++ (pk, pv) :: inorder s)
            ((inorder sib).length + (i + 1)) := by rw [hidx2]; rfl
        _ = nth (inorder s) i := nth_append_cons _ _ _ _

theorem nth_inorder_rank (t : Loc α) :
    nth (inorder t.plug) t.rank = some (t.k, t.v) := by
  have hlt : weight t.l < (inorder t.focus).length := by
    rw [inorder_length, weight_focus]
    omega
  have h := nth_inorder_plugCtx t.ctx t.focus (weight t.l) hlt
  show nth (inorder t.plug) (weight t.l + ctxRank t.ctx) = some (t.k, t.v)
  rw [Loc.plug, h]
  show nth (inorder t.l ++ (t.k, t.v) :: inorder t.r) (weight t.l) = _
  rw [← inorder_length]
  exact nth_append_self _ _ _

/-! ### Termination and rank correctness of the wrapping traversal -/

theorem traverse_in_subtree (w : Nat) :
    ∀ (t : Loc α) (b : Int), weight t.focus ≤ w →
      -(weight t.l : Int) ≤ b → b ≤ (weight t.r : Int) →
      ∃ fuel t', traverse_by_wrapping fuel t b = some t' ∧
        t'.plug = t.plug ∧ (t'.rank : Int) = (t.rank : Int) + b := by
  induction w with
  | zero =>
    intro t b hw hbl hbr
    rw [weight_focus] at hw
    omega
  | succ w ih =>
    intro t b hw hbl hbr
    have hW : 0 < weight t.plug := weight_plug_pos t
    have hwl : weight t.l < weight t.plug := wl_lt_plug t
    have hwr : weight t.r < weight t.plug := wr_lt_plug t
    have htm : b.tmod ((weight t.plug : Nat) : Int) = b :=
      tmod_eq_self (by exact_mod_cast hW) (by omega) (by omega)
    rcases lt_trichotomy b 0 with hbneg | hb0 | hbpos
    · -- backward descent into the left child
      cases htl : t.l with
      | leaf =>
        rw [htl] at hbl
        simp only [weight] at hbl
        omega
      | node ll lk lv lr =>
        have hwnode : weight (BT.node ll lk lv lr) = weight ll + 1 + weight lr :=
          rfl
        have hwtl : weight t.l = weight ll + 1 + weight lr := by rw [htl]; rfl
        have hplug2 : Loc.plug ⟨Frame.left t.k t.v t.r :: t.ctx, ll, lk, lv, lr⟩
            = t.plug := plug_down_left t htl
        have hrank2 : Loc.rank ⟨Frame.left t.k t.v t.r :: t.ctx, ll, lk, lv, lr⟩
            + weight lr + 1 = t.rank := rank_down_left t htl
        have hw2 : weight (Loc.focus ⟨Frame.left t.k t.v t.r :: t.ctx,
            ll, lk, lv, lr⟩) ≤ w := by
          show weight (BT.node ll lk lv lr) ≤ w
          rw [← htl]
          rw [weight_focus] at hw
          omega
        obtain ⟨f₂, t', hrun, hplug', hrank'⟩ :=
          ih ⟨Frame.left t.k t.v t.r :: t.ctx, ll, lk, lv, lr⟩
            (b + ((weight lr : Int) + 1)) hw2
            (by show -(weight ll : Int) ≤ _; omega)
            (by show _ ≤ (weight lr : Int); omega)
        refine ⟨f₂ + 1 + 1, t', ?_, hplug'.trans hplug2, ?_⟩
        · show traverse_by_wrapping (f₂ + 1 + 1) t b = some t'
          simp only [traverse_by_wrapping, htm]
          rw [if_neg (by omega), if_pos hbneg]
          simp only [traverse_backward_wrapping, htl]
          rw [if_pos (by omega)]
          rw [cdtp_one]
          have harg : 0 - (((-b).toNat : Nat) : Int) + ((weight lr + 1 : Nat) : Int)
              = b + ((weight lr : Int) + 1) := by
            rw [Int.toNat_of_nonneg (by omega)]
            push_cast
            ring
          rw [harg]
          exact hrun
        · rw [hrank']
          have : (Loc.rank ⟨Frame.left t.k t.v t.r :: t.ctx, ll, lk, lv, lr⟩ : Int)
              + (weight lr : Int) + 1 = (t.rank : Int) := by exact_mod_cast hrank2
          omega
    · -- offset zero: stay put
      subst hb0
      refine ⟨0 + 1, t, ?_, rfl, by omega⟩
      show traverse_by_wrapping (0 + 1) t 0 = some t
      simp only [traverse_by_wrapping, htm]
      rw [if_neg (by omega), if_neg (by omega)]
    · -- forward descent into the right child
      cases htr : t.r with
      | leaf =>
        rw [htr] at hbr
        simp only [weight] at hbr
        omega
      | node rl rk rv rr =>
        have hwnode : weight (BT.node rl rk rv rr) = weight rl + 1 + weight rr :=
          rfl
        have hwtr : weight t.r = weight rl + 1 + weight rr := by rw [htr]; rfl
        have hplug2 : Loc.plug ⟨Frame.right t.l t.k t.v :: t.ctx, rl, rk, rv, rr⟩
            = t.plug := plug_down_right t htr
        have hrank2 : Loc.rank ⟨Frame.right t.l t.k t.v :: t.ctx, rl, rk, rv, rr⟩
            = t.rank + weight rl + 1 := rank_down_right t htr
        have hw2 : weight (Loc.focus ⟨Frame.right t.l t.k t.v :: t.ctx,
            rl, rk, rv, rr⟩) ≤ w := by
          show weight (BT.node rl rk rv rr) ≤ w
          rw [← htr]
          rw [weight_focus] at hw
          omega
        obtain ⟨f₂, t', hrun, hplug', hrank'⟩ :=
          ih ⟨Frame.right t.l t.k t.v :: t.ctx, rl, rk, rv, rr⟩
            (b - ((weight rl : Int) + 1)) hw2
            (by show -(weight rl : Int) ≤ _; omega)
            (by show _ ≤ (weight rr : Int); omega)
        refine ⟨f₂ + 1 + 1, t', ?_, hplug'.trans hplug2, ?_⟩
        · show traverse_by_wrapping (f₂ + 1 + 1) t b = some t'
          simp only [traverse_by_wrapping, htm]
          rw [if_pos hbpos]
          simp only [traverse_forward_wrapping, htr]
          rw [if_pos (by omega)]
          rw [cdtp_zero]
          have harg : ((b.toNat : Nat) : Int) - ((weight rl + 1 : Nat) : Int)
              = b - ((weight rl : Int) + 1) := by
            rw [Int.toNat_of_nonneg (by omega)]
            push_cast
            ring
          rw [harg]
          exact hrun
        · rw [hrank']
          have : (Loc.rank ⟨Frame.right t.l t.k t.v :: t.ctx, rl, rk, rv, rr⟩ : Int)
              = (t.rank : Int) + (weight rl : Int) + 1 := by exact_mod_cast hrank2
          omega

theorem traverse_by_tmod (fuel : Nat) (t : Loc α) (b : Int) :
    traverse_by_wrapping fuel t b
      = traverse_by_wrapping fuel t (b.tmod ((weight t.plug : Nat) : Int)) := by
  cases fuel with
  | zero => rfl
  | succ f =>
    have hW : 0 < weight t.plug := weight_plug_pos t
    have hidem := tmod_idem (b := b) (W := ((weight t.plug : Nat) : Int))
      (by exact_mod_cast hW)
    simp only [traverse_by_wrapping, hidem]

theorem traverse_total_aux :
    ∀ (n : Nat) (t : Loc α), t.ctx.length = n →
    (∀ b : Int,
      ∃ fuel t', traverse_by_wrapping fuel t b = some t' ∧ t'.plug = t.plug ∧
        (t'.rank : Int)
          = ((t.rank : Int) + b) % ((weight t.plug : Nat) : Int)) := by
  intro n
  induction n using Nat.strong_induction_on with
  | _ n ih =>
    intro t hn
    have hW : 0 < weight t.plug := weight_plug_pos t
    have hWi : (0 : Int) < ((weight t.plug : Nat) : Int) := by exact_mod_cast hW
    have hwl : weight t.l < weight t.plug := wl_lt_plug t
    have hwr : weight t.r < weight t.plug := wr_lt_plug t
    have hrlt : t.rank < weight t.plug := rank_lt_plug t
    have hrwr : t.rank + weight t.r < weight t.plug := rank_add_wr_lt t
    -- the up-phase: an offset that cannot land inside the focus subtree
    have hup : ∀ b : Int, -((weight t.plug : Nat) : Int) < b →
        b < ((weight t.plug : Nat) : Int) →
        (0 < b → (weight t.r : Int) < b) → (b < 0 → (weight t.l : Int) < -b) →
        b ≠ 0 →
        ∃ fuel t', traverse_up_wrapping fuel t b = some t' ∧ t'.plug = t.plug ∧
          (t'.rank : Int)
            = ((t.rank : Int) + b) % ((weight t.plug : Nat) : Int) := by
      intro b hb1 hb2 hbr hbl hb0
      cases hctx : t.ctx with
      | nil =>
        -- at the root: wrap around the whole tree, then descend
        have hpf : t.plug = t.focus := by simp [Loc.plug, hctx, plugCtx]
        have hrk : t.rank = weight t.l := by simp [Loc.rank, hctx, ctxRank]
        have hWf : weight t.plug = weight t.l + 1 + weight t.r := by
          rw [hpf, weight_focus]
        have hwf : ((weight t.focus : Nat) : Int) = ((weight t.plug : Nat) : Int) :=
          by rw [hpf]
        rcases lt_trichotomy b 0 with hbneg | hb0' | hbpos
        · -- wrap upward from a negative offset
          have hout : (weight t.l : Int) < -b := hbl hbneg
          obtain ⟨fA, t', hrun, hplug, hrank⟩ :=
            traverse_in_subtree (weight t.focus) t
              (b + ((weight t.plug : Nat) : Int)) le_rfl
              (by push_cast [hWf] at hb1 hb2 ⊢; omega)
              (by push_cast [hWf] at hb1 hb2 hout ⊢; omega)
          refine ⟨fA + 1, t', ?_, hplug, ?_⟩
          · show traverse_up_wrapping (fA + 1) t b = some t'
            simp only [traverse_up_wrapping, hctx]
            rw [tdiv_natAbs_neg hbneg]
            have harg : b - (weight t.focus : Int) * (-1)
                = b + ((weight t.plug : Nat) : Int) := by
              rw [hwf]
              ring
            rw [harg]
            exact hrun
          · rw [hrank]
            have hrkZ : (t.rank : Int) = (weight t.l : Int) := by exact_mod_cast hrk
            have hWfZ : ((weight t.plug : Nat) : Int)
                = (weight t.l : Int) + 1 + (weight t.r : Int) := by
              exact_mod_cast hWf
            have hout' := hbl hbneg
            have hsum : ((t.rank : Int) + b) % ((weight t.plug : Nat) : Int)
                = ((t.rank : Int) + (b + ((weight t.plug : Nat) : Int)))
                  % ((weight t.plug : Nat) : Int) := by
              rw [show (t.rank : Int) + (b + ((weight t.plug : Nat) : Int))
                  = ((t.rank : Int) + b) + ((weight t.plug : Nat) : Int) * 1 by
                ring, Int.add_mul_emod_self_left]
            rw [hsum, Int.emod_eq_of_lt (by omega) (by omega)]
        · exact absurd hb0' hb0
        · -- wrap downward from a positive offset
          have hout : (weight t.r : Int) < b := hbr hbpos
          obtain ⟨fA, t', hrun, hplug, hrank⟩ :=
            traverse_in_subtree (weight t.focus) t
              (b - ((weight t.plug : Nat) : Int)) le_rfl
              (by push_cast [hWf] at hb1 hb2 hout ⊢; omega)
              (by push_cast [hWf] at hb1 hb2 ⊢; omega)
          refine ⟨fA + 1, t', ?_, hplug, ?_⟩
          · show traverse_up_wrapping (fA + 1) t b = some t'
            simp only [traverse_up_wrapping, hctx]
            rw [tdiv_natAbs_pos hbpos]
            have harg : b - (weight t.focus : Int) * 1
                = b - ((weight t.plug : Nat) : Int) := by
              rw [hwf]
              ring
            rw [harg]
            exact hrun
          · rw [hrank]
            have hrkZ : (t.rank : Int) = (weight t.l : Int) := by exact_mod_cast hrk
            have hWfZ : ((weight t.plug : Nat) : Int)
                = (weight t.l : Int) + 1 + (weight t.r : Int) := by
              exact_mod_cast hWf
            have hsum : ((t.rank : Int) + b) % ((weight t.plug : Nat) : Int)
                = ((t.rank : Int) + (b - ((weight t.plug : Nat) : Int)))
                  % ((weight t.plug : Nat) : Int) := by
              rw [show (t.rank : Int) + (b - ((weight t.plug : Nat) : Int))
                  = ((t.rank : Int) + b) + ((weight t.plug : Nat) : Int) * (-1) by
                ring, Int.add_mul_emod_self_left]
            rw [hsum, Int.emod_eq_of_lt (by omega) (by omega)]
      | cons fr rest =>
        have hlen : rest.length < n := by
          rw [← hn, hctx]
          simp
        cases fr with
        | left pk pv sib =>
          have hplugp : Loc.plug ⟨rest, t.focus, pk, pv, sib⟩ = t.plug :=
            plug_up_left t hctx
          have hrankp : Loc.rank ⟨rest, t.focus, pk, pv, sib⟩
              = t.rank + weight t.r + 1 := rank_up_left t hctx
          obtain ⟨fP, t', hrun, hplug', hrank'⟩ :=
            ih rest.length hlen ⟨rest, t.focus, pk, pv, sib⟩ rfl
              (b - ((weight t.r : Int) + 1))
          refine ⟨fP + 1, t', ?_, hplug'.trans hplugp, ?_⟩
          · show traverse_up_wrapping (fP + 1) t b = some t'
            simp only [traverse_up_wrapping, hctx]
            rw [show child_distance_to_parent t.focus 1 = weight t.r + 1 from
              cdtp_one t.l t.k t.v t.r]
            have harg : b - ((weight t.r + 1 : Nat) : Int)
                = b - ((weight t.r : Int) + 1) := by
              push_cast
              ring
            rw [harg]
            exact hrun
          · rw [hplugp] at hrank'
            rw [hrank']
            have h1 : (Loc.rank ⟨rest, t.focus, pk, pv, sib⟩ : Int)
                = (t.rank : Int) + (weight t.r : Int) + 1 := by
              exact_mod_cast hrankp
            rw [show (Loc.rank ⟨rest, t.focus, pk, pv, sib⟩ : Int)
                + (b - ((weight t.r : Int) + 1)) = (t.rank : Int) + b by
              rw [h1]; ring]
        | right sib pk pv =>
          have hplugp : Loc.plug ⟨rest, sib, pk, pv, t.focus⟩ = t.plug :=
            plug_up_right t hctx
          have hrankp : Loc.rank ⟨rest, sib, pk, pv, t.focus⟩
              + weight t.l + 1 = t.rank := rank_up_right t hctx
          obtain ⟨fP, t', hrun, hplug', hrank'⟩ :=
            ih rest.length hlen ⟨rest, sib, pk, pv, t.focus⟩ rfl
              (b + ((weight t.l : Int) + 1))
          refine ⟨fP + 1, t', ?_, hplug'.trans hplugp, ?_⟩
          · show traverse_up_wrapping (fP + 1) t b = some t'
            simp only [traverse_up_wrapping, hctx]
            rw [show child_distance_to_parent t.focus 0 = weight t.l + 1 from
              cdtp_zero t.l t.k t.v t.r]
            have harg : b + ((weight t.l + 1 : Nat) : Int)
                = b + ((weight t.l : Int) + 1) := by
              push_cast
              ring
            rw [harg]
            exact hrun
          · rw [hplugp] at hrank'
            rw [hrank']
            have h1 : (Loc.rank ⟨rest, sib, pk, pv, t.focus⟩ : Int)
                + (weight t.l : Int) + 1 = (t.rank : Int) := by
              exact_mod_cast hrankp
            rw [show (Loc.rank ⟨rest, sib, pk, pv, t.focus⟩ : Int)
                + (b + ((weight t.l : Int) + 1)) = (t.rank : Int) + b by
              rw [← h1]; ring]
    -- the dispatch phase of `traverse_by_wrapping`
    intro b
    obtain ⟨hm1, hm2⟩ := tmod_bounds (b := b) hWi
    have hcong : ((t.rank : Int) + b) % ((weight t.plug : Nat) : Int)
        = ((t.rank : Int) + b.tmod ((weight t.plug : Nat) : Int))
          % ((weight t.plug : Nat) : Int) := by
      conv_lhs => rw [← Int.tmod_add_tdiv b ((weight t.plug : Nat) : Int)]
      rw [← add_assoc, Int.add_mul_emod_self_left]
    have htmself : (b.tmod ((weight t.plug : Nat) : Int)).tmod
        ((weight t.plug : Nat) : Int) = b.tmod ((weight t.plug : Nat) : Int) :=
      tmod_idem hWi
    rcases lt_trichotomy (b.tmod ((weight t.plug : Nat) : Int)) 0 with
      hneg | hzero | hpos
    · -- negative wrapped offset
      by_cases hin : -(weight t.l : Int) ≤ b.tmod ((weight t.plug : Nat) : Int)
      · obtain ⟨fA, t', hrun, hplug, hrank⟩ :=
          traverse_in_subtree (weight t.focus) t
            (b.tmod ((weight t.plug : Nat) : Int)) le_rfl hin (by omega)
        refine ⟨fA, t', ?_, hplug, ?_⟩
        · rw [traverse_by_tmod]
          exact hrun
        · rw [hrank, hcong, Int.emod_eq_of_lt (by omega) (by
            have : ((t.rank : Nat) : Int) < ((weight t.plug : Nat) : Int) := by
              exact_mod_cast hrlt
            omega)]
      · push_neg at hin
        obtain ⟨fU, t', hrunU, hplugU, hrankU⟩ :=
          hup (b.tmod ((weight t.plug : Nat) : Int)) (by omega) (by omega)
            (by omega) (by omega) (by omega)
        refine ⟨fU + 1 + 1, t', ?_, hplugU, ?_⟩
        · rw [traverse_by_tmod]
          show traverse_by_wrapping (fU + 1 + 1) t
            (b.tmod ((weight t.plug : Nat) : Int)) = some t'
          simp only [traverse_by_wrapping, htmself]
          rw [if_neg (by omega), if_pos hneg]
          have htoNat : (((-(b.tmod ((weight t.plug : Nat) : Int))).toNat : Nat)
              : Int) = -(b.tmod ((weight t.plug : Nat) : Int)) :=
            Int.toNat_of_nonneg (by omega)
          cases htl : t.l with
          | leaf =>
            simp only [traverse_backward_wrapping, htl]
            rw [show (0 : Int) - (((-(b.tmod ((weight t.plug : Nat) : Int))).toNat
                : Nat) : Int) = b.tmod ((weight t.plug : Nat) : Int) by
              rw [htoNat]; ring]
            exact hrunU
          | node ll lk lv lr =>
            have hwnode : weight (BT.node ll lk lv lr) = weight t.l := by
              rw [htl]
            simp only [traverse_backward_wrapping, htl]
            rw [if_neg (by omega)]
            rw [show (0 : Int) - (((-(b.tmod ((weight t.plug : Nat) : Int))).toNat
                : Nat) : Int) = b.tmod ((weight t.plug : Nat) : Int) by
              rw [htoNat]; ring]
            exact hrunU
        · rw [hrankU, hcong]
    · -- zero wrapped offset
      refine ⟨0 + 1, t, ?_, rfl, ?_⟩
      · rw [traverse_by_tmod]
        show traverse_by_wrapping (0 + 1) t
          (b.tmod ((weight t.plug : Nat) : Int)) = some t
        simp only [traverse_by_wrapping, htmself]
        rw [if_neg (by omega), if_neg (by omega)]
      · rw [hcong, hzero, add_zero, Int.emod_eq_of_lt (by omega) (by
          exact_mod_cast hrlt)]
    · -- positive wrapped offset
      by_cases hin : b.tmod ((weight t.plug : Nat) : Int) ≤ (weight t.r : Int)
      · obtain ⟨fA, t', hrun, hplug, hrank⟩ :=
          traverse_in_subtree (weight t.focus) t
            (b.tmod ((weight t.plug : Nat) : Int)) le_rfl (by omega) hin
        refine ⟨fA, t', ?_, hplug, ?_⟩
        · rw [traverse_by_tmod]
          exact hrun
        · rw [hrank, hcong, Int.emod_eq_of_lt (by omega) (by
            have h1 : ((t.rank + weight t.r : Nat) : Int)
                < ((weight t.plug : Nat) : Int) := by exact_mod_cast hrwr
            push_cast at h1
            omega)]
      · push_neg at hin
        obtain ⟨fU, t', hrunU, hplugU, hrankU⟩ :=
          hup (b.tmod ((weight t.plug : Nat) : Int)) (by omega) (by omega)
            (by omega) (by omega) (by omega)
        refine ⟨fU + 1 + 1, t', ?_, hplugU, ?_⟩
        · rw [traverse_by_tmod]
          show traverse_by_wrapping (fU + 1 + 1) t
            (b.tmod ((weight t.plug : Nat) : Int)) = some t'
          simp only [traverse_by_wrapping, htmself]
          rw [if_pos hpos]
          have htoNat : (((b.tmod ((weight t.plug : Nat) : Int)).toNat : Nat)
              : Int) = b.tmod ((weight t.plug : Nat) : Int) :=
            Int.toNat_of_nonneg (by omega)
          cases htr : t.r with
          | leaf =>
            simp only [traverse_forward_wrapping, htr]
            rw [htoNat]
            exact hrunU
          | node rl rk rv rr =>
            have hwnode : weight (BT.node rl rk rv rr) = weight t.r := by
              rw [htr]
            simp only [traverse_forward_wrapping, htr]
            rw [if_neg (by omega)]
            rw [htoNat]
            exact hrunU
        · rw [hrankU, hcong]

/-- C10: the wrapping traversal terminates for every node of every
non-empty well-formed tree (a `Loc` is a zipper focused at a real node)
and every signed offset, despite the mutual recursion between
`traverse_by_wrapping`, `traverse_forward_wrapping`,
`traverse_backward_wrapping` and `traverse_up_wrapping` and the
wrap-around re-entry at the root: some finite fuel (call depth) always
suffices to produce a result. -/
theorem traverse_by_wrapping_terminates (t : Loc α) (b : Int) :
    ∃ fuel t', traverse_by_wrapping fuel t b = some t' := by
  obtain ⟨fuel, t', hrun, _, _⟩ := traverse_total_aux t.ctx.length t rfl b
  exact ⟨fuel, t', hrun⟩

theorem rankOfKey_eq_index {l : KV α} (hs : sortedKeys l) :
    ∀ {i : Nat} {p : Nat × α}, nth l i = some p → rankOfKey l p.1 = i := by
  induction l with
  | nil => intro i p h; simp [nth] at h
  | cons y t ih =>
    intro i p h
    cases i with
    | zero =>
      simp only [nth, Option.some.injEq] at h
      subst h
      exact rankOfKey_head
    | succ j =>
      have hj : nth t j = some p := by simpa [nth] using h
      have hyp : y.1 < p.1 := sorted_head_lt hs (nth_mem hj)
      simp [rankOfKey, hyp, ih (List.pairwise_cons.mp hs).2 hj]

/-- Bridge between the tree walk and the sorted-map model: on every tree
shape whose in-order contents are sorted by key, the transcribed
`traverse_by_wrapping` terminates and returns exactly the node that
`listTraverse` (the rank semantics used by the `move_by_wrapping` model)
computes from the start key and the offset. -/
theorem traverse_by_wrapping_rank (t : Loc α) (b : Int)
    (hsort : sortedKeys (inorder t.plug)) :
    ∃ fuel t', traverse_by_wrapping fuel t b = some t' ∧
      listTraverse (inorder t.plug) t.k b = some t'.k := by
  obtain ⟨fuel, t', hrun, hplug, hrank⟩ := traverse_total_aux t.ctx.length t rfl b
  refine ⟨fuel, t', hrun, ?_⟩
  have hlen : (inorder t.plug).length = weight t.plug := inorder_length _
  have hpos : 0 < weight t.plug := weight_plug_pos t
  have hrk : rankOfKey (inorder t.plug) t.k = t.rank :=
    rankOfKey_eq_index hsort (nth_inorder_rank t)
  have hidx : ((((rankOfKey (inorder t.plug) t.k : Nat) : Int) + b)
      % (((inorder t.plug).length : Nat) : Int)).toNat = t'.rank := by
    rw [hrk, hlen]
    omega
  unfold listTraverse
  rw [if_neg (by omega), hidx]
  have hnth : nth (inorder t.plug) t'.rank = some (t'.k, t'.v) := by
    rw [← hplug]
    exact nth_inorder_rank t'
  unfold nthKey
  rw [hnth]
  rfl

theorem traverse_by_wrapping_rank_witness :
    sortedKeys (inorder (Loc.plug (⟨[], BT.leaf, 1, 10, BT.node BT.leaf 2 20 BT.leaf⟩
      : Loc Nat))) ∧
    ∃ fuel t', traverse_by_wrapping fuel
        (⟨[], BT.leaf, 1, 10, BT.node BT.leaf 2 20 BT.leaf⟩ : Loc Nat) 3
        = some t' ∧
      listTraverse (inorder (Loc.plug (⟨[], BT.leaf, 1, 10,
          BT.node BT.leaf 2 20 BT.leaf⟩ : Loc Nat)))
        (Loc.k ⟨[], BT.leaf, 1, 10, BT.node BT.leaf 2 20 BT.leaf⟩) 3
        = some t'.k :=
  ⟨by decide, traverse_by_wrapping_rank
    (⟨[], BT.leaf, 1, 10, BT.node BT.leaf 2 20 BT.leaf⟩ : Loc Nat) 3 (by decide)⟩

end ShuffleTree
